import Mathlib

/-!
Verification of the susa convolutional encoder/decoder unit (ccode.h).

The repository ships the class declaration with a few inline bodies
(set_internal_state, rate and the two state getters).  Those inline bodies
are embedded directly from the source.  The remaining member functions are
declared but their bodies are not part of the unit, so they are modelled
from the specification; every such definition carries a doc comment that
starts with the words Modelled from the spec.

Machine integers (uint32_t, uint8_t) are embedded as Nat; where the 32 bit
width matters the definitions restrict themselves to the low 32 bits.
The floating point decoder is idealised over the real numbers.
-/

namespace Susa

/-- Error taxonomy of the unit: configuration errors (invalid generator
index, invalid octal digit or too wide pattern), domain errors
(non-positive Eb/N0) and shape errors (length not a multiple of n). -/
inductive cerror where
  | InvalidIndex
  | InvalidDigit
  | DomainError
  | ShapeError
deriving DecidableEq, Repr

/-- State of a ccode object: the fields of the C++ class, in declaration
order.  uint32_t fields become Nat, the dynamic generator array becomes a
list of decoded tap patterns. -/
structure ccode where
  uint_k : Nat
  uint_n : Nat
  uint_m : Nat
  uint_mmask : Nat
  uint_gen : List Nat
  uint_current_state : Nat
  uint_last_state : Nat
deriving DecidableEq, Repr

/-- Modelled from the spec: the constructor ccode(n, k, m), whose body is
not part of the header, stores the code parameters, sets the memory mask
to 2^m - 1, allocates one generator slot per output and starts from the
zero state. -/
def ccode.init (uint_n uint_k uint_m : Nat) : ccode :=
  ⟨uint_k, uint_n, uint_m, 2 ^ uint_m - 1, List.replicate uint_n 0, 0, 0⟩

/-- Embedding of the inline body of rate(): the source evaluates
(uint_k / uint_n) in unsigned integer arithmetic and only then converts
the already truncated quotient to float; the returned value is therefore
the rational image of the integer quotient. -/
def rate (c : ccode) : ℚ :=
  ((c.uint_k / c.uint_n : Nat) : ℚ)

/-- Embedding of the inline body of set_internal_state(uint_state): the
single assignment uint_current_state = uint_state. -/
def set_internal_state (c : ccode) (uint_state : Nat) : ccode :=
  { c with uint_current_state := uint_state }

/-- Modelled from the spec: count_1bits is declared without a body; the
spec describes it as a population count.  Its argument is a uint32_t, so
the count ranges over the 32 bit positions. -/
def count_1bits (x : Nat) : Nat :=
  ((List.range 32).map (fun i => (x >>> i) &&& 1)).sum

/-- Modelled from the spec: oct_to_dec is declared without a body; the
spec says each octal digit contributes 3 bits, most significant digit
first, i.e. the base 10 digits of the argument are reinterpreted in base
8.  A uint32_t has at most 10 decimal digits, so 10 positions suffice. -/
def oct_to_dec (x : Nat) : Nat :=
  ((List.range 10).map (fun i => (x / 10 ^ i % 10) * 8 ^ i)).sum

/-- Modelled from the spec: the digit validity check behind the
InvalidDigit error, true when every base 10 digit of the argument is a
valid octal digit (below 8). -/
def oct_digits_ok (x : Nat) : Bool :=
  (List.range 10).all (fun i => x / 10 ^ i % 10 < 8)

/-- Modelled from the spec: set_generator(uint_gen, uint_gen_indx) fails
with InvalidIndex when the index reaches n, fails with InvalidDigit when
a digit exceeds 7 or the decoded pattern exceeds m + 1 bits, and
otherwise stores the decoded tap pattern at the given output index. -/
def set_generator (c : ccode) (uint_gen uint_gen_indx : Nat) : Except cerror ccode :=
  if c.uint_n ≤ uint_gen_indx then .error .InvalidIndex
  else if oct_digits_ok uint_gen = false then .error .InvalidDigit
  else if 2 ^ (c.uint_m + 1) ≤ oct_to_dec uint_gen then .error .InvalidDigit
  else .ok { c with uint_gen := c.uint_gen.set uint_gen_indx (oct_to_dec uint_gen) }

/-- Modelled from the spec: next_state(uint_state, b_input) is
((state << 1) | input) & mask with the memory mask field of the code. -/
def next_state (c : ccode) (uint_state : Nat) (b_input : Bool) : Nat :=
  ((uint_state <<< 1) ||| (if b_input then 1 else 0)) &&& c.uint_mmask

/-- Modelled from the spec: next_output(uint_state, b_input) forms the
(m + 1) bit window with the input as the newest low order bit, masks it
with each generator in output order and reduces each masked window by
parity, yielding one bit per output. -/
def next_output (c : ccode) (uint_state : Nat) (b_input : Bool) : List Nat :=
  c.uint_gen.map
    (fun g => count_1bits (((uint_state <<< 1) ||| (if b_input then 1 else 0)) &&& g) % 2)

/-- Modelled from the spec: prev_states(uint_state) produces the inverse
shift candidates, the right shifted state with each possible vacated high
bit re-inserted at the top of the window, kept only when valid under the
memory mask. -/
def prev_states (c : ccode) (uint_state : Nat) : List Nat :=
  [uint_state >>> 1, (uint_state >>> 1) ||| (1 <<< (c.uint_m - 1))].filter
    (fun t => decide (t ≤ c.uint_mmask))

/-- State reached from a start state after consuming a list of input
bits, stepping with next_state. -/
def state_after (c : ccode) (s : Nat) (l : List Bool) : Nat :=
  l.foldl (next_state c) s

/-- Modelled from the spec: the encoding loop.  From the current state,
each input bit emits the n output bits of next_output and advances the
state with next_state; outputs are appended in time order. -/
def encode_from (c : ccode) : Nat → List Bool → List Nat
  | _, [] => []
  | s, b :: rest => next_output c s b ++ encode_from c (next_state c s b) rest

/-- Modelled from the spec: encode(mat_arg) flushes to the zero state and
runs the encoding loop over the input bits. -/
def encode (c : ccode) (input : List Bool) : List Nat :=
  encode_from c 0 input

/-- The (n = 2, k = 1, m = 2) code with the octal generators 7 and 5
installed through set_generator, as the spec reference vector sets it
up. -/
def ccode_g7_g5 : Except cerror ccode :=
  Except.bind (set_generator (ccode.init 2 1 2) 7 0) (fun c => set_generator c 5 1)

/-- Antipodal symbol map of the channel model: output bit 1 maps to +1,
output bit 0 maps to -1. -/
noncomputable def symb (b : Nat) : ℝ :=
  if b = 1 then 1 else -1

/-- Gaussian likelihood of one received sample given the expected
antipodal symbol, under noise variance v. -/
noncomputable def gauss_lik (v y x : ℝ) : ℝ :=
  Real.exp (-((y - x) ^ 2) / (2 * v))

/-- Likelihood of a time step: product over the n received samples of the
Gaussian likelihood of the corresponding expected output symbol. -/
noncomputable def lik_list (v : ℝ) (ys : List ℝ) (os : List Nat) : ℝ :=
  ((ys.zip os).map (fun p => gauss_lik v p.1 (symb p.2))).prod

/-- Branch metric restricted to one input bit: the input prior times the
Gaussian likelihood of the transition outputs when b drives the
predecessor to the successor, and 0 when it does not. -/
noncomputable def gamma_b (c : ccode) (v ck : ℝ) (ys : List ℝ) (sp s : Nat) (b : Bool) : ℝ :=
  if next_state c sp b = s then
    (if b then ck else 1 - ck) * lik_list v ys (next_output c sp b)
  else 0

/-- Modelled from the spec: the branch metric of a trellis transition,
summed over the (at most one) realizable driving input bit;
non-realizable transitions contribute 0. -/
noncomputable def gamma (c : ccode) (v ck : ℝ) (ys : List ℝ) (sp s : Nat) : ℝ :=
  gamma_b c v ck ys sp s true + gamma_b c v ck ys sp s false

/-- Per step renormalisation of a state vector so that it sums to 1. -/
noncomputable def normalize (l : List ℝ) : List ℝ :=
  l.map (fun x => x / l.sum)

/-- Initial forward vector: all mass on the zero state. -/
noncomputable def alpha0 (c : ccode) : List ℝ :=
  (List.range (2 ^ c.uint_m)).map (fun s => if s = 0 then 1 else 0)

/-- One forward recursion step of the BCJR decoder, renormalised. -/
noncomputable def fwd_step (c : ccode) (v ck : ℝ) (prev : List ℝ) (ys : List ℝ) : List ℝ :=
  normalize ((List.range (2 ^ c.uint_m)).map
    (fun s => ((List.range (2 ^ c.uint_m)).map
      (fun sp => prev.getD sp 0 * gamma c v ck ys sp s)).sum))

/-- Terminal backward vector: uniform over the states. -/
noncomputable def betaT (c : ccode) : List ℝ :=
  (List.range (2 ^ c.uint_m)).map (fun _ => 1 / ((2 : ℝ) ^ c.uint_m))

/-- One backward recursion step of the BCJR decoder, renormalised. -/
noncomputable def bwd_step (c : ccode) (v ck : ℝ) (nxt : List ℝ) (ys : List ℝ) : List ℝ :=
  normalize ((List.range (2 ^ c.uint_m)).map
    (fun sp => ((List.range (2 ^ c.uint_m)).map
      (fun s => gamma c v ck ys sp s * nxt.getD s 0)).sum))

/-- Splits the flat received sequence into time steps of n samples. -/
def chunk_list (n : Nat) : List ℝ → List (List ℝ)
  | [] => []
  | x :: xs =>
    if _h : n = 0 then []
    else (x :: xs).take n :: chunk_list n ((x :: xs).drop n)
termination_by l => l.length
decreasing_by
  simp only [List.length_drop, List.length_cons]
  omega

/-- All forward vectors, one per trellis depth from 0 to T. -/
noncomputable def fwd_pass (c : ccode) (v ck : ℝ) (cs : List (List ℝ)) : List (List ℝ) :=
  cs.scanl (fwd_step c v ck) (alpha0 c)

/-- All backward vectors, one per trellis depth from 0 to T. -/
noncomputable def bwd_pass (c : ccode) (v ck : ℝ) (cs : List (List ℝ)) : List (List ℝ) :=
  (cs.reverse.scanl (bwd_step c v ck) (betaT c)).reverse

/-- Unnormalised a posteriori mass of one input hypothesis at one time
step: sum over all transitions driven by that input bit of forward mass
times branch metric times backward mass. -/
noncomputable def apo_mass (c : ccode) (v ck : ℝ) (al be ys : List ℝ) (b : Bool) : ℝ :=
  ((List.range (2 ^ c.uint_m)).map (fun sp =>
    ((List.range (2 ^ c.uint_m)).map (fun s =>
      al.getD sp 0 * gamma_b c v ck ys sp s b * be.getD s 0)).sum)).sum

/-- Modelled from the spec: the metric computation of the BCJR decoder.
Noise variance from Eb/N0 and the rate, forward and backward passes over
the per time step chunks, and the combination emitting the normalised
probability of input bit 1 per time step. -/
noncomputable def bcjr_compute (c : ccode) (received : List ℝ) (dbl_ebn0 c_k : ℝ) : List ℝ :=
  let v := 1 / (2 * ((c.uint_k : ℝ) / (c.uint_n : ℝ)) * dbl_ebn0)
  let cs := chunk_list c.uint_n received
  let alphas := fwd_pass c v c_k cs
  let betas := bwd_pass c v c_k cs
  (List.range cs.length).map (fun t =>
    let l1 := apo_mass c v c_k (alphas.getD t []) (betas.getD (t + 1) []) (cs.getD t []) true
    let l0 := apo_mass c v c_k (alphas.getD t []) (betas.getD (t + 1) []) (cs.getD t []) false
    l1 / (l1 + l0))

/-- Modelled from the spec: decode_bcjr(mat_arg, dbl_ebn0, c_k) guards
its domain first, a non-positive Eb/N0 is a domain error and a received
length that is not a multiple of n is a shape error, both raised before
any metric computation; otherwise it runs the BCJR metric computation. -/
noncomputable def decode_bcjr (c : ccode) (received : List ℝ) (dbl_ebn0 c_k : ℝ) :
    Except cerror (List ℝ) :=
  if dbl_ebn0 ≤ 0 then .error .DomainError
  else if received.length % c.uint_n ≠ 0 then .error .ShapeError
  else .ok (bcjr_compute c received dbl_ebn0 c_k)

/-!  Helper lemmas shared by the claim theorems.  -/

theorem length_next_output (c : ccode) (s : Nat) (b : Bool) :
    (next_output c s b).length = c.uint_gen.length := by
  simp [next_output]

theorem length_encode_from (c : ccode) (hg : c.uint_gen.length = c.uint_n) :
    ∀ (input : List Bool) (s : Nat),
      (encode_from c s input).length = c.uint_n * input.length := by
  intro input
  induction input with
  | nil => intro s; simp [encode_from]
  | cons b rest ih =>
    intro s
    simp [encode_from, length_next_output, hg, ih, Nat.mul_succ, Nat.add_comm]

theorem encode_from_getD (c : ccode) (hg : c.uint_gen.length = c.uint_n) :
    ∀ (input : List Bool) (s t j : Nat), t < input.length → j < c.uint_n →
      (encode_from c s input).getD (t * c.uint_n + j) 0 =
        (next_output c (state_after c s (input.take t)) (input.getD t false)).getD j 0 := by
  intro input
  induction input with
  | nil => intro s t j ht hj; simp at ht
  | cons b rest ih =>
    intro s t j ht hj
    cases t with
    | zero =>
      have hlen : j < (next_output c s b).length := by
        rw [length_next_output, hg]; exact hj
      simp only [encode_from, Nat.zero_mul, Nat.zero_add]
      rw [List.getD_append _ _ _ _ hlen]
      simp [state_after]
    | succ t =>
      have hlen : (next_output c s b).length ≤ (t + 1) * c.uint_n + j := by
        rw [length_next_output, hg]
        exact le_trans (Nat.le_mul_of_pos_left c.uint_n (Nat.succ_pos t)) (Nat.le_add_right _ _)
      simp only [encode_from]
      rw [List.getD_append_right _ _ _ _ hlen, length_next_output, hg]
      have hidx : (t + 1) * c.uint_n + j - c.uint_n = t * c.uint_n + j := by
        rw [Nat.succ_mul]
        generalize t * c.uint_n = A
        omega
      rw [hidx, ih (next_state c s b) t j (by simpa using ht) hj]
      simp [state_after]

theorem next_state_eq_mod (c : ccode) (hmask : c.uint_mmask = 2 ^ c.uint_m - 1)
    (s : Nat) (b : Bool) :
    next_state c s b = (2 * s + (if b then 1 else 0)) % 2 ^ c.uint_m := by
  have hb : (if b then 1 else 0 : Nat) < 2 ^ 1 := by cases b <;> norm_num
  rw [next_state, hmask, Nat.and_pow_two_sub_one_eq_mod, Nat.shiftLeft_eq]
  have h2 := Nat.mul_add_lt_is_or hb s
  rw [mul_comm s (2 ^ 1), ← h2]

theorem next_state_false_eq (c : ccode) (hmask : c.uint_mmask = 2 ^ c.uint_m - 1)
    (u : Nat) : next_state c u false = 2 * u % 2 ^ c.uint_m := by
  rw [next_state_eq_mod c hmask]
  norm_num

theorem next_state_true_eq (c : ccode) (hmask : c.uint_mmask = 2 ^ c.uint_m - 1)
    (u : Nat) : next_state c u true = (2 * u + 1) % 2 ^ c.uint_m := by
  rw [next_state_eq_mod c hmask]
  norm_num

theorem two_pow_split (m : Nat) (h : 1 ≤ m) : 2 ^ m = 2 * 2 ^ (m - 1) := by
  conv_lhs => rw [show m = (m - 1) + 1 by omega]
  rw [pow_succ]
  ring

theorem prev_states_explicit (c : ccode) (hmask : c.uint_mmask = 2 ^ c.uint_m - 1)
    (hm : 1 ≤ c.uint_m) (t : Nat) (ht : t < 2 ^ c.uint_m) :
    prev_states c t = [t / 2, t / 2 + 2 ^ (c.uint_m - 1)] := by
  have hpow := two_pow_split c.uint_m hm
  have hdiv : t / 2 < 2 ^ (c.uint_m - 1) := by omega
  have hsecond : (t >>> 1) ||| (1 <<< (c.uint_m - 1)) = t / 2 + 2 ^ (c.uint_m - 1) := by
    rw [Nat.shiftRight_eq_div_pow, Nat.shiftLeft_eq, pow_one, one_mul]
    have h2 := Nat.mul_add_lt_is_or hdiv 1
    rw [mul_one] at h2
    rw [Nat.or_comm, ← h2]
    exact Nat.add_comm _ _
  have h1 : t / 2 ≤ c.uint_mmask := by rw [hmask]; omega
  have hq : t / 2 + 2 ^ (c.uint_m - 1) ≤ c.uint_mmask := by rw [hmask]; omega
  rw [prev_states, hsecond, Nat.shiftRight_eq_div_pow, pow_one]
  simp [List.filter, h1, hq]

/-!  Theorems for the claims.  -/

/-- Claim C1, evaluated on the code: for the (n = 2, k = 1) configuration
the inline body of rate() divides the integers first, so it returns 0 and
not the fraction 1/2 the spec requires. -/
theorem rate_c1_integer_division_bug :
    rate (ccode.init 2 1 2) = 0 ∧ rate (ccode.init 2 1 2) ≠ 1 / 2 := by
  constructor
  · norm_num [rate, ccode.init]
  · norm_num [rate, ccode.init]

/-- Claim C2: with the octal generators 7 and 5 installed on the
(n = 2, k = 1, m = 2) code, encoding the bits 1 0 1 1 from the zero state
yields the textbook output sequence 11 10 00 01, bit for bit. -/
theorem encode_1011_g7_g5_textbook :
    Except.map (fun c => encode c [true, false, true, true]) ccode_g7_g5 =
      Except.ok [1, 1, 1, 0, 0, 0, 0, 1] := rfl

/-- Claim C3: on the declared state domain, next_state computes
((state << 1) | input) & mask with mask = 2^m - 1, and the result lands
below 2^m again, so the function is total on that domain. -/
theorem next_state_spec (c : ccode) (hmask : c.uint_mmask = 2 ^ c.uint_m - 1)
    (s : Nat) (_hs : s < 2 ^ c.uint_m) (b : Bool) :
    next_state c s b =
      ((s <<< 1) ||| (if b then 1 else 0)) &&& (2 ^ c.uint_m - 1) ∧
    next_state c s b < 2 ^ c.uint_m := by
  constructor
  · rw [next_state, hmask]
  · rw [next_state, hmask, Nat.and_pow_two_sub_one_eq_mod]
    exact Nat.mod_lt _ (Nat.two_pow_pos _)

theorem next_state_spec_witness :
    (ccode.init 2 1 2).uint_mmask = 2 ^ (ccode.init 2 1 2).uint_m - 1 ∧
    3 < 2 ^ (ccode.init 2 1 2).uint_m ∧
    (next_state (ccode.init 2 1 2) 3 true =
        ((3 <<< 1) ||| (if true then 1 else 0)) &&& (2 ^ (ccode.init 2 1 2).uint_m - 1) ∧
      next_state (ccode.init 2 1 2) 3 true < 2 ^ (ccode.init 2 1 2).uint_m) :=
  ⟨by decide, by decide, next_state_spec (ccode.init 2 1 2) (by decide) 3 (by decide) true⟩

/-- Claim C4: encoding produces exactly n output bits per input bit, in
time major then output index minor order, the bit at slot t * n + j being
output j of the transition taken at time t; the empty input encodes to
the empty output. -/
theorem encode_shape (c : ccode) (hg : c.uint_gen.length = c.uint_n) (input : List Bool) :
    (encode c input).length = c.uint_n * input.length ∧
    encode c [] = [] ∧
    (∀ t j, t < input.length → j < c.uint_n →
      (encode c input).getD (t * c.uint_n + j) 0 =
        (next_output c (state_after c 0 (input.take t)) (input.getD t false)).getD j 0) := by
  refine ⟨length_encode_from c hg input 0, rfl, ?_⟩
  intro t j ht hj
  exact encode_from_getD c hg input 0 t j ht hj

theorem encode_shape_witness :
    (ccode.init 2 1 2).uint_gen.length = (ccode.init 2 1 2).uint_n ∧
    (encode (ccode.init 2 1 2) [true, false]).length =
      (ccode.init 2 1 2).uint_n * ([true, false] : List Bool).length ∧
    encode (ccode.init 2 1 2) [] = [] ∧
    (∀ t j, t < ([true, false] : List Bool).length → j < (ccode.init 2 1 2).uint_n →
      (encode (ccode.init 2 1 2) [true, false]).getD (t * (ccode.init 2 1 2).uint_n + j) 0 =
        (next_output (ccode.init 2 1 2)
          (state_after (ccode.init 2 1 2) 0 (([true, false] : List Bool).take t))
          (([true, false] : List Bool).getD t false)).getD j 0) :=
  ⟨by decide, encode_shape (ccode.init 2 1 2) (by decide) [true, false]⟩

/-- Claim C5: with an output index at or beyond n, set_generator fails
with the InvalidIndex configuration error and yields no updated code
state, so the generator table is left unchanged. -/
theorem set_generator_invalid_index (c : ccode) (g idx : Nat) (h : c.uint_n ≤ idx) :
    set_generator c g idx = .error .InvalidIndex := by
  simp [set_generator, h]

theorem set_generator_invalid_index_witness :
    (ccode.init 2 1 2).uint_n ≤ 2 ∧
      set_generator (ccode.init 2 1 2) 7 2 = .error .InvalidIndex :=
  ⟨by decide, set_generator_invalid_index (ccode.init 2 1 2) 7 2 (by decide)⟩

/-- Claim C6: a non-positive Eb/N0 makes decode_bcjr fail with the
domain error before any metric computation, whatever the received data
and the prior are. -/
theorem decode_bcjr_domain_guard (c : ccode) (received : List ℝ) (dbl_ebn0 c_k : ℝ)
    (h : dbl_ebn0 ≤ 0) :
    decode_bcjr c received dbl_ebn0 c_k = .error .DomainError := by
  simp [decode_bcjr, h]

theorem decode_bcjr_domain_guard_witness :
    (0 : ℝ) ≤ 0 ∧ decode_bcjr (ccode.init 2 1 2) [] 0 (1 / 2) = .error .DomainError :=
  ⟨le_refl 0, decode_bcjr_domain_guard (ccode.init 2 1 2) [] 0 (1 / 2) (le_refl 0)⟩

/-- Claim C7: prev_states inverts next_state on the declared domain.
The source state is always among the predecessors returned for its
successor, the returned list holds exactly the states that reach the
given state under some input bit, and it holds at most two entries. -/
theorem prev_states_inverse (c : ccode) (hmask : c.uint_mmask = 2 ^ c.uint_m - 1) :
    (∀ s, s < 2 ^ c.uint_m → ∀ b : Bool, s ∈ prev_states c (next_state c s b)) ∧
    (∀ t, t < 2 ^ c.uint_m → ∀ s,
      s ∈ prev_states c t ↔
        s < 2 ^ c.uint_m ∧ (next_state c s false = t ∨ next_state c s true = t)) ∧
    (∀ t, (prev_states c t).length ≤ 2) := by
  have hpos : 0 < 2 ^ c.uint_m := Nat.two_pow_pos _
  have hlt : ∀ s (b : Bool), next_state c s b < 2 ^ c.uint_m := by
    intro s b
    rw [next_state_eq_mod c hmask]
    exact Nat.mod_lt _ hpos
  have hiff : ∀ t, t < 2 ^ c.uint_m → ∀ s,
      s ∈ prev_states c t ↔
        s < 2 ^ c.uint_m ∧ (next_state c s false = t ∨ next_state c s true = t) := by
    intro t ht s
    by_cases hm : c.uint_m = 0
    · have h1 : (2 : Nat) ^ c.uint_m = 1 := by rw [hm]; rfl
      have ht0 : t = 0 := by omega
      have hmask0 : c.uint_mmask = 0 := by rw [hmask, h1]
      have hpv : prev_states c t = [0] := by
        rw [ht0, prev_states, hmask0, hm]
        rfl
      have hns : ∀ u (b : Bool), next_state c u b = 0 := by
        intro u b
        rw [next_state_eq_mod c hmask, h1, Nat.mod_one]
      rw [hpv, hns s false, hns s true, ht0, h1]
      simp only [List.mem_singleton]
      constructor
      · intro hsm; exact ⟨by omega, Or.inl trivial⟩
      · intro hsm; omega
    · have hm1 : 1 ≤ c.uint_m := by omega
      have hpow := two_pow_split c.uint_m hm1
      rw [prev_states_explicit c hmask hm1 t ht]
      simp only [List.mem_cons, List.not_mem_nil, or_false]
      constructor
      · intro hmem
        rcases Nat.mod_two_eq_zero_or_one t with hp | hp
        · rcases hmem with hcase | hcase
          · refine ⟨by omega, Or.inl ?_⟩
            rw [next_state_false_eq c hmask, hcase]
            rw [show 2 * (t / 2) = t by omega]
            exact Nat.mod_eq_of_lt ht
          · refine ⟨by omega, Or.inl ?_⟩
            rw [next_state_false_eq c hmask, hcase]
            rw [show 2 * (t / 2 + 2 ^ (c.uint_m - 1)) = t + 2 ^ c.uint_m by omega,
              Nat.add_mod_right]
            exact Nat.mod_eq_of_lt ht
        · rcases hmem with hcase | hcase
          · refine ⟨by omega, Or.inr ?_⟩
            rw [next_state_true_eq c hmask, hcase]
            rw [show 2 * (t / 2) + 1 = t by omega]
            exact Nat.mod_eq_of_lt ht
          · refine ⟨by omega, Or.inr ?_⟩
            rw [next_state_true_eq c hmask, hcase]
            rw [show 2 * (t / 2 + 2 ^ (c.uint_m - 1)) + 1 = t + 2 ^ c.uint_m by omega,
              Nat.add_mod_right]
            exact Nat.mod_eq_of_lt ht
      · rintro ⟨hs, hd | hd⟩
        · rw [next_state_false_eq c hmask] at hd
          rcases Nat.lt_or_ge (2 * s) (2 ^ c.uint_m) with hc | hc
          · rw [Nat.mod_eq_of_lt hc] at hd
            left; omega
          · rw [Nat.mod_eq_sub_mod hc, Nat.mod_eq_of_lt (by omega)] at hd
            right; omega
        · rw [next_state_true_eq c hmask] at hd
          rcases Nat.lt_or_ge (2 * s + 1) (2 ^ c.uint_m) with hc | hc
          · rw [Nat.mod_eq_of_lt hc] at hd
            left; omega
          · rw [Nat.mod_eq_sub_mod hc, Nat.mod_eq_of_lt (by omega)] at hd
            right; omega
  refine ⟨?_, hiff, ?_⟩
  · intro s hs b
    refine (hiff (next_state c s b) (hlt s b) s).mpr ⟨hs, ?_⟩
    cases b with
    | false => exact Or.inl rfl
    | true => exact Or.inr rfl
  · intro t
    rw [prev_states]
    exact List.length_filter_le _ _

theorem prev_states_inverse_witness :
    (ccode.init 2 1 2).uint_mmask = 2 ^ (ccode.init 2 1 2).uint_m - 1 ∧
    1 ∈ prev_states (ccode.init 2 1 2) (next_state (ccode.init 2 1 2) 1 true) :=
  ⟨by decide, (prev_states_inverse (ccode.init 2 1 2) (by decide)).1 1 (by decide) true⟩

/-- Claim C9: set_internal_state writes only the current state field;
the last state and the whole persistent configuration (k, n, m, the state
mask and the generator table) are untouched. -/
theorem set_internal_state_frame (c : ccode) (s : Nat) :
    (set_internal_state c s).uint_current_state = s ∧
    (set_internal_state c s).uint_last_state = c.uint_last_state ∧
    (set_internal_state c s).uint_k = c.uint_k ∧
    (set_internal_state c s).uint_n = c.uint_n ∧
    (set_internal_state c s).uint_m = c.uint_m ∧
    (set_internal_state c s).uint_mmask = c.uint_mmask ∧
    (set_internal_state c s).uint_gen = c.uint_gen :=
  ⟨rfl, rfl, rfl, rfl, rfl, rfl, rfl⟩

/-- Claim C10: set_internal_state accepts any uint32_t value and stores
it verbatim, with no range check, no error and no masking, including
values at or above 2^m outside the declared state space. -/
theorem set_internal_state_verbatim (c : ccode) (s : Nat) (_hs : s < 2 ^ 32) :
    (set_internal_state c s).uint_current_state = s :=
  rfl

theorem set_internal_state_verbatim_witness :
    7 < 2 ^ 32 ∧ 2 ^ (ccode.init 2 1 2).uint_m ≤ 7 ∧
      (set_internal_state (ccode.init 2 1 2) 7).uint_current_state = 7 :=
  ⟨by decide, by decide, set_internal_state_verbatim (ccode.init 2 1 2) 7 (by decide)⟩

end Susa
